import Mathlib

/-!
# Verification of the Gale–Shapley stable-matching engine

This file is a shallow embedding of `stable_matching.py` (the only source
file of the repository) and a development of the properties claimed by the
specification.  Python dictionaries are modelled as insertion-ordered
association lists (`List (Person × β)`) with the exact update semantics of
CPython dicts: updating an existing key keeps its position, inserting a new
key appends at the end, and deleting removes the entry.  The `while` loop of
the proposal engine is modelled with explicit fuel, since the source loop
does not terminate on every validated input; `none` means the fuel ran out
(in particular, a result that is `none` for every fuel is a diverging run).
-/

set_option autoImplicit false

namespace GaleShapley

/-- `Person = str` from the source's type aliases. -/
abbrev Person := String

/-- `Preferences = List[Person]`. -/
abbrev Preferences := List Person

/-- `Side = Dict[Person, Preferences]`, as an insertion-ordered assoc list. -/
abbrev Side := List (Person × Preferences)

/-- `Participants = Dict[str, Side]`. -/
abbrev Participants := List (String × Side)

/-- `Pair = Tuple[Person, Person]`. -/
abbrev Pair := Person × Person

/-- `Matching = Dict[Person, Person]` (the engagement dictionary). -/
abbrev Matching := List (Person × Person)

/-- Python `d[k]` / `d.get(k)`: first (unique) entry with the given key. -/
def dget {β : Type} : List (Person × β) → Person → Option β
  | [], _ => none
  | a :: t, k => if a.1 = k then some a.2 else dget t k

/-- Python `k in d` on a dict: key membership. -/
def dmem {β : Type} (e : List (Person × β)) (k : Person) : Bool :=
  (dget e k).isSome

/-- Python `d[k] = v`: update in place if the key exists, else append. -/
def dput {β : Type} : List (Person × β) → Person → β → List (Person × β)
  | [], k, v => [(k, v)]
  | a :: t, k, v => if a.1 = k then (k, v) :: t else a :: dput t k v

/-- Python `del d[k]`: remove the entry with the given key, keeping the
order of the others. -/
def derase {β : Type} : List (Person × β) → Person → List (Person × β)
  | [], _ => []
  | a :: t, k => if a.1 = k then derase t k else a :: derase t k

/-- `other_side`: the first side label different from the current one
(`None`, i.e. fall-through, when there is no such side). -/
def other_side (current : String) (all_sides : List String) : Option String :=
  all_sides.find? (fun s => s != current)

/-- `all_preferences`: every participant's preference list contains every
participant of the other side.  The source indexes
`participants[other_side(side, sides)]`; on the two-sided inputs the claims
are about, the lookup always succeeds, which the `Option.getD` defaults
reflect. -/
def all_preferences (participants : Participants) : Bool :=
  let sides := participants.map Prod.fst
  participants.all (fun sp =>
    let others := (dget participants ((other_side sp.1 sides).getD "")).getD []
    sp.2.all (fun np => others.all (fun o => np.2.contains o.1)))

/-- `is_free`: the person is missing from the engagement dictionary. -/
def is_free (person : Person) (engaged : Matching) : Bool :=
  !(dmem engaged person)

/-- `current_match`: `engaged.get(person)`. -/
def current_match (person : Person) (engaged : Matching) : Option Person :=
  dget engaged person

/-- `free_participants`: the members of `people` missing from `engaged`. -/
def free_participants (people : List Person) (engaged : Matching) : List Person :=
  people.filter (fun x => !(dmem engaged x))

/-- `preferred`: walk the preference list; `a` found first means `True`,
`b` found first means `False`, neither found means the Python function
falls through and returns `None`. -/
def preferred (a b : Person) : Preferences → Option Bool
  | [] => none
  | p :: rest =>
    if p = a then some true
    else if p = b then some false
    else preferred a b rest

/-- The mutable state of the proposal loop: `proposal_history` (proposer to
list of targets already proposed to) and `engagements`. -/
structure MState where
  history : List (Person × List Person)
  engagements : Matching
deriving DecidableEq

/-- `target in proposal_history[proposer]`. -/
def hasProposed (h : List (Person × List Person)) (p t : Person) : Bool :=
  ((dget h p).getD []).contains t

/-- `proposal_history[proposer][target] = ""`. -/
def recordProposal (h : List (Person × List Person)) (p t : Person) :
    List (Person × List Person) :=
  dput h p (((dget h p).getD []) ++ [t])

/-- The body of `for proposer in free_proposers` in `stable_matching`:
find the highest-ranked target not yet proposed to, record the proposal,
then either engage (target free), replace the incumbent (target prefers
the proposer), or leave the engagements unchanged; `break` after the first
proposal is modelled by acting on the first unproposed target only. -/
def proposeStep (proposers receivers : Side) (st : MState) (proposer : Person) : MState :=
  let preferences := (dget proposers proposer).getD []
  match preferences.find? (fun t => !(hasProposed st.history proposer t)) with
  | none => st
  | some target =>
    let h := recordProposal st.history proposer target
    if is_free target st.engagements then
      { history := h,
        engagements := dput (dput st.engagements proposer target) target proposer }
    else
      match current_match target st.engagements with
      | none => { history := h, engagements := st.engagements }
      | some current =>
        let target_preferences := (dget receivers target).getD []
        if preferred proposer current target_preferences = some true then
          { history := h,
            engagements :=
              derase (dput (dput st.engagements target proposer) proposer target) current }
        else
          { history := h, engagements := st.engagements }

/-- One full sweep of `for proposer in free_proposers`. -/
def sweep (proposers receivers : Side) (st : MState) (free : List Person) : MState :=
  free.foldl (proposeStep proposers receivers) st

/-- The `while free_proposers:` loop, with explicit fuel counting sweeps.
After each sweep the free list is recomputed, as in the source, by
filtering the PREVIOUS free list against the engagement dictionary. -/
def runLoop (proposers receivers : Side) : Nat → List Person → MState → Option MState
  | 0, free, st => if free.isEmpty then some st else none
  | fuel + 1, free, st =>
    if free.isEmpty then some st
    else
      let st2 := sweep proposers receivers st free
      runLoop proposers receivers fuel (free_participants free st2.engagements) st2

/-- One iteration of the result-composition loop: collect the pair unless
its reverse was already collected (`if (b, a) not in stable_matchings:
stable_matchings.add((a, b))`), with the set's no-duplicates semantics. -/
def composeStep (acc : List Pair) (ab : Pair) : List Pair :=
  if (ab.2, ab.1) ∈ acc then acc
  else if ab ∈ acc then acc
  else acc ++ [ab]

/-- The result-composition loop: walk `engagements.items()` and collect a
pair unless its reverse was already collected.  The Python `set` is
modelled as an insertion-ordered duplicate-free list; only its contents,
not its iteration order, are used by the claims settled here. -/
def compose (engagements : Matching) : List Pair :=
  engagements.foldl composeStep []

/-- Result of a run of `stable_matching`: either the `MissingPreferences`
exception or a list of pairs. -/
inductive SMOutcome where
  | missingPrefs : SMOutcome
  | ok : List Pair → SMOutcome
deriving DecidableEq

/-- `stable_matching`, with fuel for the proposal loop.  The `none` results
model a run that does not finish within the fuel (or, off the two-sided
domain, a Python `IndexError`/`KeyError`). -/
def stable_matching (fuel : Nat) (participants : Participants) : Option SMOutcome :=
  if all_preferences participants then
    match participants.map Prod.fst with
    | [] => none
    | proposing :: rest =>
      match other_side proposing (proposing :: rest) with
      | none => none
      | some receiving =>
        match dget participants proposing, dget participants receiving with
        | some proposers, some receivers =>
          let free0 := proposers.map Prod.fst
          let hist0 := proposers.map (fun e => (e.1, ([] : List Person)))
          match runLoop proposers receivers fuel free0 ⟨hist0, []⟩ with
          | some st => some (SMOutcome.ok (compose st.engagements))
          | none => none
        | _, _ => none
  else some SMOutcome.missingPrefs

/-! ## Concrete inputs -/

/-- The proposing side of the sample data set in the source docstring. -/
def sampleA : Side :=
  [("abc", ["123", "451", "912"]),
   ("asd", ["123", "912", "451"]),
   ("pqq", ["123", "451", "912"])]

/-- The receiving side of the sample data set in the source docstring. -/
def sampleB : Side :=
  [("123", ["pqq", "asd", "abc"]),
   ("451", ["asd", "pqq", "abc"]),
   ("912", ["pqq", "asd", "abc"])]

/-- The sample participants structure of the source docstring. -/
def samplePs : Participants := [("side_A", sampleA), ("side_B", sampleB)]

/-- Proposing side of a validated input on which the engine loses a
displaced incumbent: `p1` is engaged in sweep 1 and displaced in sweep 2,
after the free list no longer contains it. -/
def c1P : Side :=
  [("p1", ["r1", "r2", "r3"]),
   ("p2", ["r2", "r1", "r3"]),
   ("p3", ["r2", "r1", "r3"])]

/-- Receiving side of the lost-incumbent input: `r1` prefers `p3` over its
sweep-1 partner `p1`. -/
def c1R : Side :=
  [("r1", ["p3", "p1", "p2"]),
   ("r2", ["p2", "p1", "p3"]),
   ("r3", ["p1", "p2", "p3"])]

/-- The lost-incumbent participants structure. -/
def c1ps : Participants := [("A", c1P), ("B", c1R)]

/-- Proposing side of a validated unequal-sides input (two proposers, one
receiver) on which the loop never terminates. -/
def c2P : Side := [("p1", ["r1"]), ("p2", ["r1"])]

/-- Receiving side of the unequal-sides input. -/
def c2R : Side := [("r1", ["p1", "p2"])]

/-- The unequal-sides participants structure. -/
def c2ps : Participants := [("A", c2P), ("B", c2R)]

/-- The loop state reached after the first sweep on `c2ps`: `p1` engaged to
`r1`, both proposers have proposed to `r1`, and the free list is `[p2]`.
Every later sweep leaves this state unchanged. -/
def c2st1 : MState :=
  { history := [("p1", ["r1"]), ("p2", ["r1"])],
    engagements := [("p1", "r1"), ("r1", "p1")] }

/-- Proposing side of a four-couple input where sweep 3 runs while the
displaced proposer `p1` is free but absent from the iterated free list. -/
def c3P : Side :=
  [("p1", ["r1", "r2", "r3", "r4"]),
   ("p2", ["r2", "r1", "r3", "r4"]),
   ("p3", ["r2", "r1", "r3", "r4"]),
   ("p4", ["r1", "r2", "r3", "r4"])]

/-- Receiving side of the four-couple input: `r1` prefers `p3` over `p1`,
so `p1` is displaced in sweep 2. -/
def c3R : Side :=
  [("r1", ["p3", "p1", "p4", "p2"]),
   ("r2", ["p2", "p1", "p3", "p4"]),
   ("r3", ["p1", "p2", "p3", "p4"]),
   ("r4", ["p1", "p2", "p3", "p4"])]

/-- The four-couple participants structure. -/
def c3ps : Participants := [("A", c3P), ("B", c3R)]

/-- Initial loop state for `c3ps`. -/
def c3st0 : MState := ⟨c3P.map (fun e => (e.1, [])), []⟩

/-- Initial free list for `c3ps` (all proposers). -/
def c3free0 : List Person := c3P.map Prod.fst

/-- State after sweep 1 on `c3ps`. -/
def c3st1 : MState := sweep c3P c3R c3st0 c3free0

/-- Free list iterated by sweep 2 on `c3ps`. -/
def c3free1 : List Person := free_participants c3free0 c3st1.engagements

/-- State after sweep 2 on `c3ps`. -/
def c3st2 : MState := sweep c3P c3R c3st1 c3free1

/-- Free list iterated by sweep 3 on `c3ps`. -/
def c3free2 : List Person := free_participants c3free1 c3st2.engagements

/-! ## Dictionary lemmas -/

theorem dget_mem {β : Type} {e : List (Person × β)} {k : Person} {v : β}
    (h : dget e k = some v) : (k, v) ∈ e := by
  induction e with
  | nil => simp [dget] at h
  | cons a t ih =>
    by_cases hk : a.1 = k
    · simp only [dget, if_pos hk] at h
      obtain rfl : v = a.2 := (Option.some.inj h).symm
      subst hk
      exact List.mem_cons_self _ _
    · simp only [dget, if_neg hk] at h
      exact List.mem_cons_of_mem _ (ih h)

theorem mem_dget {β : Type} {e : List (Person × β)}
    (hnd : (e.map Prod.fst).Nodup) {k : Person} {v : β}
    (h : (k, v) ∈ e) : dget e k = some v := by
  induction e with
  | nil => cases h
  | cons a t ih =>
    rw [List.map_cons, List.nodup_cons] at hnd
    rcases List.mem_cons.mp h with h1 | h1
    · rw [← h1]
      simp [dget]
    · have hk : a.1 ≠ k := by
        intro he
        exact hnd.1 (he ▸ List.mem_map.mpr ⟨(k, v), h1, rfl⟩)
      simp only [dget, if_neg hk]
      exact ih hnd.2 h1

theorem dget_dput_self {β : Type} (e : List (Person × β)) (k : Person) (v : β) :
    dget (dput e k v) k = some v := by
  induction e with
  | nil => simp [dput, dget]
  | cons a t ih =>
    by_cases h : a.1 = k
    · simp [dput, dget, h]
    · simp [dput, dget, h, ih]

theorem dget_dput_ne {β : Type} {e : List (Person × β)} {k q : Person} {v : β}
    (h : q ≠ k) : dget (dput e k v) q = dget e q := by
  have hkq : ¬ k = q := fun he => h he.symm
  induction e with
  | nil => simp [dput, dget, hkq]
  | cons a t ih =>
    by_cases ha : a.1 = k
    · have haq : ¬ a.1 = q := fun he => hkq (by rw [← ha, he])
      rw [dput, if_pos ha, dget, if_neg hkq, dget, if_neg haq]
    · rw [dput, if_neg ha]
      by_cases hq : a.1 = q
      · rw [dget, if_pos hq, dget, if_pos hq]
      · rw [dget, if_neg hq, dget, if_neg hq, ih]

theorem dget_derase_self {β : Type} (e : List (Person × β)) (k : Person) :
    dget (derase e k) k = none := by
  induction e with
  | nil => simp [derase, dget]
  | cons a t ih =>
    by_cases h : a.1 = k
    · rw [derase, if_pos h]; exact ih
    · rw [derase, if_neg h, dget, if_neg h]; exact ih

theorem dget_derase_ne {β : Type} {e : List (Person × β)} {k q : Person}
    (h : q ≠ k) : dget (derase e k) q = dget e q := by
  induction e with
  | nil => simp [derase, dget]
  | cons a t ih =>
    by_cases ha : a.1 = k
    · have haq : ¬ a.1 = q := fun he => h (by rw [← he, ha])
      rw [derase, if_pos ha, ih, dget, if_neg haq]
    · rw [derase, if_neg ha]
      by_cases hq : a.1 = q
      · rw [dget, if_pos hq, dget, if_pos hq]
      · rw [dget, if_neg hq, dget, if_neg hq, ih]

theorem mem_dput {β : Type} {e : List (Person × β)} {k : Person} {v : β}
    {ab : Person × β} (h : ab ∈ dput e k v) : ab = (k, v) ∨ ab ∈ e := by
  induction e with
  | nil => simpa [dput] using h
  | cons a t ih =>
    by_cases ha : a.1 = k
    · rw [dput, if_pos ha] at h
      rcases List.mem_cons.mp h with h1 | h1
      · exact Or.inl h1
      · exact Or.inr (List.mem_cons_of_mem _ h1)
    · rw [dput, if_neg ha] at h
      rcases List.mem_cons.mp h with h1 | h1
      · exact Or.inr (h1 ▸ List.mem_cons_self _ _)
      · rcases ih h1 with h2 | h2
        · exact Or.inl h2
        · exact Or.inr (List.mem_cons_of_mem _ h2)

theorem mem_derase {β : Type} {e : List (Person × β)} {k : Person}
    {ab : Person × β} (h : ab ∈ derase e k) : ab ∈ e ∧ ab.1 ≠ k := by
  induction e with
  | nil => cases h
  | cons a t ih =>
    by_cases ha : a.1 = k
    · rw [derase, if_pos ha] at h
      obtain ⟨h1, h2⟩ := ih h
      exact ⟨List.mem_cons_of_mem _ h1, h2⟩
    · rw [derase, if_neg ha] at h
      rcases List.mem_cons.mp h with h1 | h1
      · refine ⟨h1 ▸ List.mem_cons_self _ _, ?_⟩
        rw [h1]; exact ha
      · obtain ⟨h2, h3⟩ := ih h1
        exact ⟨List.mem_cons_of_mem _ h2, h3⟩

theorem mem_keys_derase {β : Type} {e : List (Person × β)} {k x : Person}
    (h : x ∈ (derase e k).map Prod.fst) : x ∈ e.map Prod.fst := by
  rcases List.mem_map.mp h with ⟨ab, hab, hx⟩
  exact hx ▸ List.mem_map.mpr ⟨ab, (mem_derase hab).1, rfl⟩

theorem mem_keys_dput {β : Type} {e : List (Person × β)} {k : Person} {v : β}
    {x : Person} (h : x ∈ (dput e k v).map Prod.fst) :
    x = k ∨ x ∈ e.map Prod.fst := by
  rcases List.mem_map.mp h with ⟨ab, hab, hx⟩
  rcases mem_dput hab with h1 | h1
  · exact Or.inl (by rw [← hx, h1])
  · exact Or.inr (hx ▸ List.mem_map.mpr ⟨ab, h1, rfl⟩)

theorem nodup_dput {β : Type} {e : List (Person × β)}
    (hnd : (e.map Prod.fst).Nodup) (k : Person) (v : β) :
    ((dput e k v).map Prod.fst).Nodup := by
  induction e with
  | nil => simp [dput]
  | cons a t ih =>
    rw [List.map_cons, List.nodup_cons] at hnd
    by_cases ha : a.1 = k
    · rw [dput, if_pos ha]
      rw [List.map_cons, List.nodup_cons]
      exact ⟨ha ▸ hnd.1, hnd.2⟩
    · rw [dput, if_neg ha]
      rw [List.map_cons, List.nodup_cons]
      refine ⟨fun hmem => ?_, ih hnd.2⟩
      rcases mem_keys_dput hmem with h1 | h1
      · exact ha h1
      · exact hnd.1 h1

theorem nodup_derase {β : Type} {e : List (Person × β)}
    (hnd : (e.map Prod.fst).Nodup) (k : Person) :
    ((derase e k).map Prod.fst).Nodup := by
  induction e with
  | nil => simp [derase]
  | cons a t ih =>
    rw [List.map_cons, List.nodup_cons] at hnd
    by_cases ha : a.1 = k
    · rw [derase, if_pos ha]; exact ih hnd.2
    · rw [derase, if_neg ha, List.map_cons, List.nodup_cons]
      exact ⟨fun hm => hnd.1 (mem_keys_derase hm), ih hnd.2⟩

theorem dget_isSome_of_mem_keys {β : Type} {e : List (Person × β)} {k : Person}
    (h : k ∈ e.map Prod.fst) : ∃ v, dget e k = some v := by
  induction e with
  | nil => cases h
  | cons a t ih =>
    rw [List.map_cons] at h
    rcases List.mem_cons.mp h with h1 | h1
    · exact ⟨a.2, by simp [dget, h1]⟩
    · by_cases ha : a.1 = k
      · exact ⟨a.2, by simp [dget, ha]⟩
      · rcases ih h1 with ⟨v, hv⟩
        exact ⟨v, by simp [dget, ha, hv]⟩

/-! ## Lemmas about `preferred` -/

theorem preferred_eq_none_iff (a b : Person) (l : List Person) :
    preferred a b l = none ↔ a ∉ l ∧ b ∉ l := by
  induction l with
  | nil => simp [preferred]
  | cons p t ih =>
    by_cases hpa : p = a
    · subst hpa
      simp [preferred]
    · by_cases hpb : p = b
      · subst hpb
        simp [preferred, hpa]
      · simp only [preferred, if_neg hpa, if_neg hpb, ih, List.mem_cons]
        constructor
        · rintro ⟨h1, h2⟩
          exact ⟨fun h => h.elim (fun he => hpa he.symm) h1,
                 fun h => h.elim (fun he => hpb he.symm) h2⟩
        · rintro ⟨h1, h2⟩
          exact ⟨fun h => h1 (Or.inr h), fun h => h2 (Or.inr h)⟩

theorem preferred_ne_none_left {a b : Person} {l : List Person} (h : a ∈ l) :
    preferred a b l ≠ none :=
  fun hn => ((preferred_eq_none_iff a b l).mp hn).1 h

/-! ## The engagement-map invariant -/

/-- The spec's Engagement invariant, plus the bipartiteness that makes it
preservable: keys are unique, every entry `(x, y)` has the mirror lookup
`y ↦ x`, and every entry pairs a member of the proposing side with a
member of the receiving side. -/
def EngInv (pKeys rKeys : List Person) (e : Matching) : Prop :=
  (e.map Prod.fst).Nodup ∧
  (∀ ab ∈ e, dget e ab.2 = some ab.1) ∧
  (∀ ab ∈ e, (ab.1 ∈ pKeys ∧ ab.2 ∈ rKeys) ∨ (ab.1 ∈ rKeys ∧ ab.2 ∈ pKeys))

instance (pKeys rKeys : List Person) (e : Matching) : Decidable (EngInv pKeys rKeys e) := by
  unfold EngInv
  infer_instance

theorem EngInv.dget_symm {pKeys rKeys : List Person} {e : Matching}
    (h : EngInv pKeys rKeys e) {x y : Person}
    (hx : dget e x = some y) : dget e y = some x :=
  h.2.1 (x, y) (dget_mem hx)

/-- A first engagement `engagements[p] = t; engagements[t] = p` of a free
proposer with a free receiver preserves the invariant. -/
theorem enginv_engage {pKeys rKeys : List Person} {e : Matching} {p t : Person}
    (hdisj : ∀ x ∈ pKeys, x ∉ rKeys)
    (hInv : EngInv pKeys rKeys e)
    (hp : dget e p = none) (ht : dget e t = none)
    (hpk : p ∈ pKeys) (htk : t ∈ rKeys) :
    EngInv pKeys rKeys (dput (dput e p t) t p) := by
  have hpt : p ≠ t := fun he => hdisj p hpk (he ▸ htk)
  have hg : ∀ x, dget (dput (dput e p t) t p) x =
      if x = t then some p else if x = p then some t else dget e x := by
    intro x
    by_cases hxt : x = t
    · rw [if_pos hxt, hxt, dget_dput_self]
    · rw [if_neg hxt, dget_dput_ne hxt]
      by_cases hxp : x = p
      · rw [if_pos hxp, hxp, dget_dput_self]
      · rw [if_neg hxp, dget_dput_ne hxp]
  have hnd : ((dput (dput e p t) t p).map Prod.fst).Nodup :=
    nodup_dput (nodup_dput hInv.1 p t) t p
  have hsymm : ∀ x y, dget (dput (dput e p t) t p) x = some y →
      dget (dput (dput e p t) t p) y = some x := by
    intro x y hxy
    rw [hg] at hxy
    rw [hg]
    by_cases hxt : x = t
    · rw [if_pos hxt] at hxy
      obtain rfl : y = p := (Option.some.inj hxy).symm
      rw [if_neg hpt, if_pos rfl, hxt]
    · rw [if_neg hxt] at hxy
      by_cases hxp : x = p
      · rw [if_pos hxp] at hxy
        obtain rfl : y = t := (Option.some.inj hxy).symm
        rw [if_pos rfl, hxp]
      · rw [if_neg hxp] at hxy
        have hyx : dget e y = some x := hInv.dget_symm hxy
        have hyt : y ≠ t := fun he => by rw [he, ht] at hyx; cases hyx
        have hyp : y ≠ p := fun he => by rw [he, hp] at hyx; cases hyx
        rw [if_neg hyt, if_neg hyp]
        exact hyx
  refine ⟨hnd, fun ab hab => ?_, fun ab hab => ?_⟩
  · exact hsymm ab.1 ab.2 (mem_dget hnd hab)
  · rcases mem_dput hab with h1 | h1
    · rw [h1]; exact Or.inr ⟨htk, hpk⟩
    · rcases mem_dput h1 with h2 | h2
      · rw [h2]; exact Or.inl ⟨hpk, htk⟩
      · exact hInv.2.2 ab h2

/-- A replacement `engagements[t] = p; engagements[p] = t; del
engagements[c]` of the incumbent `c` of an engaged receiver `t` by a free
proposer `p` that `t` prefers preserves the invariant. -/
theorem enginv_replace {pKeys rKeys : List Person} {e : Matching} {p t c : Person}
    (hdisj : ∀ x ∈ pKeys, x ∉ rKeys)
    (hInv : EngInv pKeys rKeys e)
    (hp : dget e p = none) (hc : dget e t = some c)
    (hpk : p ∈ pKeys) (htk : t ∈ rKeys) :
    EngInv pKeys rKeys (derase (dput (dput e t p) p t) c) := by
  have hct : dget e c = some t := hInv.dget_symm hc
  have hck : c ∈ pKeys := by
    rcases hInv.2.2 (t, c) (dget_mem hc) with h1 | h1
    · exact absurd htk (hdisj t h1.1)
    · exact h1.2
  have hpt : p ≠ t := fun he => hdisj p hpk (he ▸ htk)
  have hpc : p ≠ c := fun he => by rw [he, hct] at hp; cases hp
  have htc : t ≠ c := fun he => hdisj c hck (he ▸ htk)
  have hg : ∀ x, dget (derase (dput (dput e t p) p t) c) x =
      if x = c then none else if x = p then some t
      else if x = t then some p else dget e x := by
    intro x
    by_cases hxc : x = c
    · rw [if_pos hxc, hxc, dget_derase_self]
    · rw [if_neg hxc, dget_derase_ne hxc]
      by_cases hxp : x = p
      · rw [if_pos hxp, hxp, dget_dput_self]
      · rw [if_neg hxp, dget_dput_ne hxp]
        by_cases hxt : x = t
        · rw [if_pos hxt, hxt, dget_dput_self]
        · rw [if_neg hxt, dget_dput_ne hxt]
  have hnd : ((derase (dput (dput e t p) p t) c).map Prod.fst).Nodup :=
    nodup_derase (nodup_dput (nodup_dput hInv.1 t p) p t) c
  have hsymm : ∀ x y, dget (derase (dput (dput e t p) p t) c) x = some y →
      dget (derase (dput (dput e t p) p t) c) y = some x := by
    intro x y hxy
    rw [hg] at hxy
    rw [hg]
    by_cases hxc : x = c
    · rw [if_pos hxc] at hxy; cases hxy
    · rw [if_neg hxc] at hxy
      by_cases hxp : x = p
      · rw [if_pos hxp] at hxy
        obtain rfl : y = t := (Option.some.inj hxy).symm
        rw [if_neg (fun h => htc h), if_neg (fun h => hpt h.symm), if_pos rfl, hxp]
      · rw [if_neg hxp] at hxy
        by_cases hxt : x = t
        · rw [if_pos hxt] at hxy
          obtain rfl : y = p := (Option.some.inj hxy).symm
          rw [if_neg (fun h => hpc h), if_pos rfl, hxt]
        · rw [if_neg hxt] at hxy
          have hyx : dget e y = some x := hInv.dget_symm hxy
          have hyc : y ≠ c := fun he => by
            rw [he, hct] at hyx
            exact hxt (Option.some.inj hyx).symm
          have hyp : y ≠ p := fun he => by rw [he, hp] at hyx; cases hyx
          have hyt : y ≠ t := fun he => by
            rw [he, hc] at hyx
            exact hxc (Option.some.inj hyx).symm
          rw [if_neg hyc, if_neg hyp, if_neg hyt]
          exact hyx
  refine ⟨hnd, fun ab hab => ?_, fun ab hab => ?_⟩
  · exact hsymm ab.1 ab.2 (mem_dget hnd hab)
  · have h1 := (mem_derase hab).1
    rcases mem_dput h1 with h2 | h2
    · rw [h2]; exact Or.inl ⟨hpk, htk⟩
    · rcases mem_dput h2 with h3 | h3
      · rw [h3]; exact Or.inr ⟨htk, hpk⟩
      · exact hInv.2.2 ab h3

/-- A single iteration of the proposal loop body preserves the engagement
invariant, and keeps every other proposer that was free (and is not a
receiver) free. -/
theorem proposeStep_inv (proposers receivers : Side) (st : MState) (p : Person)
    (hdisj : ∀ x ∈ proposers.map Prod.fst, x ∉ receivers.map Prod.fst)
    (hprefs : ∀ ep ∈ proposers, ∀ t ∈ ep.2, t ∈ receivers.map Prod.fst)
    (hInv : EngInv (proposers.map Prod.fst) (receivers.map Prod.fst) st.engagements)
    (hpk : p ∈ proposers.map Prod.fst)
    (hfree : dget st.engagements p = none) :
    EngInv (proposers.map Prod.fst) (receivers.map Prod.fst)
      (proposeStep proposers receivers st p).engagements ∧
    (∀ q, q ≠ p → dget st.engagements q = none →
      q ∉ receivers.map Prod.fst →
      dget (proposeStep proposers receivers st p).engagements q = none) := by
  obtain ⟨prefs0, hps⟩ := dget_isSome_of_mem_keys hpk
  cases hfind : ((dget proposers p).getD []).find? (fun t => !(hasProposed st.history p t)) with
  | none =>
    simp only [proposeStep, hfind]
    exact ⟨hInv, fun q _ hq _ => hq⟩
  | some t =>
    have htmem : t ∈ prefs0 := by
      have := List.mem_of_find?_eq_some hfind
      rwa [hps, Option.getD_some] at this
    have htk : t ∈ receivers.map Prod.fst := hprefs (p, prefs0) (dget_mem hps) t htmem
    simp only [proposeStep, hfind]
    cases hfr : dget st.engagements t with
    | none =>
      simp only [is_free, dmem, hfr, Option.isSome_none, Bool.not_false, if_true]
      refine ⟨enginv_engage hdisj hInv hfree hfr hpk htk, fun q hqp hq hqr => ?_⟩
      have hqt : q ≠ t := fun he => hqr (he ▸ htk)
      rw [dget_dput_ne hqt, dget_dput_ne hqp, hq]
    | some c =>
      simp only [is_free, dmem, hfr, Option.isSome_some, Bool.not_true, if_false,
        current_match]
      rw [if_neg Bool.false_ne_true]
      by_cases hpref : preferred p c ((dget receivers t).getD []) = some true
      · rw [if_pos hpref]
        dsimp only
        refine ⟨enginv_replace hdisj hInv hfree hfr hpk htk, fun q hqp hq hqr => ?_⟩
        have hqt : q ≠ t := fun he => hqr (he ▸ htk)
        have hqc : q ≠ c := fun he => by
          have hct := hInv.dget_symm hfr
          rw [he, hct] at hq
          cases hq
        rw [dget_derase_ne hqc, dget_dput_ne hqp, dget_dput_ne hqt, hq]
      · rw [if_neg hpref]
        dsimp only
        exact ⟨hInv, fun q _ hq _ => hq⟩

/-- One full sweep over a duplicate-free list of free proposers preserves
the engagement invariant. -/
theorem sweep_inv (proposers receivers : Side)
    (hdisj : ∀ x ∈ proposers.map Prod.fst, x ∉ receivers.map Prod.fst)
    (hprefs : ∀ ep ∈ proposers, ∀ t ∈ ep.2, t ∈ receivers.map Prod.fst) :
    ∀ (free : List Person) (st : MState),
      EngInv (proposers.map Prod.fst) (receivers.map Prod.fst) st.engagements →
      (∀ q ∈ free, q ∈ proposers.map Prod.fst) →
      free.Nodup →
      (∀ q ∈ free, dget st.engagements q = none) →
      EngInv (proposers.map Prod.fst) (receivers.map Prod.fst)
        (sweep proposers receivers st free).engagements := by
  intro free
  induction free with
  | nil => exact fun st hInv _ _ _ => hInv
  | cons p fs ih =>
    intro st hInv hsub hnd hfree
    rw [List.nodup_cons] at hnd
    obtain ⟨hInv2, hfree2⟩ := proposeStep_inv proposers receivers st p hdisj hprefs hInv
      (hsub p (List.mem_cons_self _ _)) (hfree p (List.mem_cons_self _ _))
    show EngInv _ _
      (sweep proposers receivers (proposeStep proposers receivers st p) fs).engagements
    refine ih _ hInv2 (fun q hq => hsub q (List.mem_cons_of_mem _ hq)) hnd.2
      (fun q hq => ?_)
    have hqp : q ≠ p := fun he => hnd.1 (he ▸ hq)
    exact hfree2 q hqp (hfree q (List.mem_cons_of_mem _ hq))
      (hdisj q (hsub q (List.mem_cons_of_mem _ hq)))

/-- Members of `free_participants people e` are members of `people` that
are absent from `e`. -/
theorem mem_free_participants {people : List Person} {e : Matching} {q : Person}
    (h : q ∈ free_participants people e) : q ∈ people ∧ dget e q = none := by
  have hm := List.mem_filter.mp h
  refine ⟨hm.1, ?_⟩
  have hb := hm.2
  rw [Bool.not_eq_true'] at hb
  rw [dmem] at hb
  cases hdg : dget e q with
  | none => rfl
  | some v => rw [hdg, Option.isSome_some] at hb; cases hb

/-- The proposal loop preserves the engagement invariant: whatever state
it returns satisfies it. -/
theorem runLoop_inv (proposers receivers : Side)
    (hdisj : ∀ x ∈ proposers.map Prod.fst, x ∉ receivers.map Prod.fst)
    (hprefs : ∀ ep ∈ proposers, ∀ t ∈ ep.2, t ∈ receivers.map Prod.fst) :
    ∀ (fuel : Nat) (free : List Person) (st stf : MState),
      EngInv (proposers.map Prod.fst) (receivers.map Prod.fst) st.engagements →
      (∀ q ∈ free, q ∈ proposers.map Prod.fst) →
      free.Nodup →
      (∀ q ∈ free, dget st.engagements q = none) →
      runLoop proposers receivers fuel free st = some stf →
      EngInv (proposers.map Prod.fst) (receivers.map Prod.fst) stf.engagements := by
  intro fuel
  induction fuel with
  | zero =>
    intro free st stf hInv _ _ _ hrun
    rw [runLoop] at hrun
    by_cases hfe : free.isEmpty
    · rw [if_pos hfe] at hrun
      cases hrun
      exact hInv
    · rw [if_neg hfe] at hrun
      cases hrun
  | succ k ih =>
    intro free st stf hInv hsub hnd hfree hrun
    simp only [runLoop] at hrun
    by_cases hfe : free.isEmpty
    · rw [if_pos hfe] at hrun
      cases hrun
      exact hInv
    · rw [if_neg hfe] at hrun
      refine ih _ _ _ (sweep_inv proposers receivers hdisj hprefs free st hInv hsub hnd hfree)
        ?_ (hnd.filter _) ?_ hrun
      · exact fun q hq => hsub q (mem_free_participants hq).1
      · exact fun q hq => (mem_free_participants hq).2

/-! ## Lemmas about `compose` -/

theorem mem_composeStep {acc : List Pair} {x ab : Pair}
    (h : ab ∈ composeStep acc x) : ab ∈ acc ∨ ab = x := by
  rw [composeStep] at h
  split at h
  · exact Or.inl h
  · split at h
    · exact Or.inl h
    · rcases List.mem_append.mp h with h1 | h1
      · exact Or.inl h1
      · exact Or.inr (List.mem_singleton.mp h1)

theorem nodup_composeStep {acc : List Pair} (x : Pair) (h : acc.Nodup) :
    (composeStep acc x).Nodup := by
  rw [composeStep]
  split
  · exact h
  · split
    · exact h
    · rename_i h1 h2
      rw [List.nodup_append]
      exact ⟨h, List.nodup_singleton x, by simpa [List.disjoint_singleton] using h2⟩

/-- No two collected pairs are reverses of each other. -/
def NoRevDup (acc : List Pair) : Prop :=
  ∀ a b : Person, a ≠ b → (a, b) ∈ acc → (b, a) ∉ acc

theorem noRevDup_composeStep {acc : List Pair} (x : Pair) (h : NoRevDup acc) :
    NoRevDup (composeStep acc x) := by
  rw [composeStep]
  split
  · exact h
  · split
    · exact h
    · rename_i hrev hmem
      intro a b hab h1 h2
      rcases List.mem_append.mp h1 with h1a | h1a
      · rcases List.mem_append.mp h2 with h2a | h2a
        · exact h a b hab h1a h2a
        · have hx : x = (b, a) := (List.mem_singleton.mp h2a).symm
          exact hrev (by rw [hx]; exact h1a)
      · have hx : x = (a, b) := (List.mem_singleton.mp h1a).symm
        rcases List.mem_append.mp h2 with h2a | h2a
        · exact hrev (by rw [hx]; exact h2a)
        · have hx2 : x = (b, a) := (List.mem_singleton.mp h2a).symm
          rw [hx] at hx2
          exact hab (congrArg Prod.fst hx2)

theorem compose_foldl_mem : ∀ (l acc : List Pair) (ab : Pair),
    ab ∈ l.foldl composeStep acc → ab ∈ acc ∨ ab ∈ l := by
  intro l
  induction l with
  | nil => exact fun acc ab h => Or.inl h
  | cons x xs ih =>
    intro acc ab h
    rw [List.foldl_cons] at h
    rcases ih _ ab h with h1 | h1
    · rcases mem_composeStep h1 with h2 | h2
      · exact Or.inl h2
      · exact Or.inr (h2 ▸ List.mem_cons_self _ _)
    · exact Or.inr (List.mem_cons_of_mem _ h1)

theorem compose_foldl_nodup : ∀ (l acc : List Pair),
    acc.Nodup → (l.foldl composeStep acc).Nodup := by
  intro l
  induction l with
  | nil => exact fun acc h => h
  | cons x xs ih =>
    intro acc h
    rw [List.foldl_cons]
    exact ih _ (nodup_composeStep x h)

theorem compose_foldl_norev : ∀ (l acc : List Pair),
    NoRevDup acc → NoRevDup (l.foldl composeStep acc) := by
  intro l
  induction l with
  | nil => exact fun acc h => h
  | cons x xs ih =>
    intro acc h
    rw [List.foldl_cons]
    exact ih _ (noRevDup_composeStep x h)

theorem compose_mem {e : Matching} {ab : Pair} (h : ab ∈ compose e) : ab ∈ e := by
  rcases compose_foldl_mem e [] ab h with h1 | h1
  · cases h1
  · exact h1

theorem compose_nodup (e : Matching) : (compose e).Nodup :=
  compose_foldl_nodup e [] List.nodup_nil

theorem compose_norev {e : Matching} {a b : Person} (hab : a ≠ b)
    (h1 : (a, b) ∈ compose e) : (b, a) ∉ compose e :=
  compose_foldl_norev e [] (fun _ _ _ hm => absurd hm (List.not_mem_nil _)) a b hab h1

/-! ## Reduction of `stable_matching` on two-sided inputs -/

theorem other_side_fst (la lb : String) (h : la ≠ lb) :
    other_side la [la, lb] = some lb := by
  rw [other_side, List.find?_cons]
  simp [Ne.symm h]

theorem other_side_snd (la lb : String) (h : la ≠ lb) :
    other_side lb [la, lb] = some la := by
  rw [other_side, List.find?_cons]
  have hb : (la != lb) = true := by simp [h]
  rw [hb]

theorem dget_pair_fst {β : Type} (la lb : String) (A B : β) :
    dget [(la, A), (lb, B)] la = some A := by
  simp [dget]

theorem dget_pair_snd {β : Type} (la lb : String) (A B : β) (h : la ≠ lb) :
    dget [(la, A), (lb, B)] lb = some B := by
  simp [dget, h]

/-- The completeness condition, worded as the spec words it: no
participant's preference list omits a member of the opposite side. -/
def Complete (A B : Side) : Prop :=
  (∀ np ∈ A, ∀ o ∈ B, o.1 ∈ np.2) ∧ (∀ np ∈ B, ∀ o ∈ A, o.1 ∈ np.2)

instance (A B : Side) : Decidable (Complete A B) := by
  unfold Complete
  infer_instance

/-- On a two-sided input, the validator accepts exactly the complete
inputs. -/
theorem all_preferences_two (la lb : String) (A B : Side) (h : la ≠ lb) :
    all_preferences [(la, A), (lb, B)] = true ↔ Complete A B := by
  rw [all_preferences, Complete]
  simp only [List.map_cons, List.map_nil, List.all_cons, List.all_nil,
    other_side_fst la lb h, other_side_snd la lb h, Option.getD_some,
    dget_pair_fst, dget_pair_snd la lb A B h]
  simp [List.all_eq_true, List.elem_iff, and_assoc]

/-- When a two-sided run returns a matching, it is the composition of a
final state of the proposal loop started from the initial state. -/
theorem stable_matching_run {la lb : String} {A B : Side} {fuel : Nat}
    {pairs : List Pair} (hlab : la ≠ lb)
    (hrun : stable_matching fuel [(la, A), (lb, B)] = some (SMOutcome.ok pairs)) :
    ∃ stf, runLoop A B fuel (A.map Prod.fst) ⟨A.map (fun e => (e.1, [])), []⟩ = some stf ∧
      pairs = compose stf.engagements := by
  rw [stable_matching] at hrun
  by_cases hv : all_preferences [(la, A), (lb, B)] = true
  · rw [if_pos hv] at hrun
    simp only [List.map_cons, List.map_nil, other_side_fst la lb hlab,
      dget_pair_fst, dget_pair_snd la lb A B hlab] at hrun
    cases hr : runLoop A B fuel (A.map Prod.fst) ⟨A.map (fun e => (e.1, [])), []⟩ with
    | none => rw [hr] at hrun; cases hrun
    | some stf =>
      rw [hr] at hrun
      exact ⟨stf, rfl, (SMOutcome.ok.inj (Option.some.inj hrun)).symm⟩
  · rw [if_neg hv] at hrun
    cases hrun

/-! ## The specification's notion of a blocking pair

The following definitions formalise the spec's wording ("no pair (p, r)
... such that p prefers r over r' AND r prefers p over p'", with an
unmatched participant preferring any partner over none); they are used to
state stability claims about the output of `stable_matching`, not to model
source code. -/

/-- The partner a participant is paired with in an output pairing list, in
either orientation, if any. -/
def partnerIn (pairs : List Pair) (x : Person) : Option Person :=
  match pairs.find? (fun ab => ab.1 == x) with
  | some ab => some ab.2
  | none => (pairs.find? (fun ab => ab.2 == x)).map Prod.fst

/-- `x` is ranked strictly before `y` in the preference list `l`. -/
def ranksAheadOf (l : List Person) (x y : Person) : Bool :=
  l.indexOf x < l.indexOf y

/-- The spec's blocking-pair condition for a proposer `p` with preference
list `pPrefs` and a receiver `r` with preference list `rPrefs`, against an
output pairing list: they are not paired together, `p` prefers `r` over
its assigned partner (or is unmatched), and `r` prefers `p` over its
assigned partner (or is unmatched). -/
def blocksB (pPrefs rPrefs : List Person) (pairs : List Pair) (p r : Person) : Bool :=
  (partnerIn pairs p != some r) && (partnerIn pairs r != some p) &&
  (match partnerIn pairs p with
   | none => true
   | some r2 => ranksAheadOf pPrefs r r2) &&
  (match partnerIn pairs r with
   | none => true
   | some p2 => ranksAheadOf rPrefs p p2)

/-! ## Concrete claim theorems -/

/-- **C8.** On the docstring's sample input the engine returns exactly the
three couples `{123,pqq}`, `{451,abc}`, `{912,asd}` (here in the concrete
orientation and insertion order the model produces; the claim only
constrains the set of couples, which matches). -/
theorem claim8_sample_output :
    stable_matching 5 samplePs =
      some (SMOutcome.ok [("123", "pqq"), ("abc", "451"), ("asd", "912")]) := by
  decide

/-- **C1 (code bug).** The input `c1ps` passes validation, yet the returned
matching `[(r1,p3),(p2,r2)]` leaves `p1` and `r3` unmatched, and `(p1,r3)`
is a blocking pair in the spec's sense: the output is not stable.  (The
incumbent `p1`, displaced in sweep 2, is never returned to the free list,
so it never proposes to `r3`.) -/
theorem claim1_blocking_pair_in_output :
    all_preferences c1ps = true ∧
    stable_matching 5 c1ps = some (SMOutcome.ok [("r1", "p3"), ("p2", "r2")]) ∧
    blocksB ["r1", "r2", "r3"] ["p1", "p2", "p3"]
      [("r1", "p3"), ("p2", "r2")] "p1" "r3" = true := by
  decide

/-- After the first sweep on `c2ps` the loop state is exactly `c2st1`. -/
theorem c2_first_sweep :
    sweep c2P c2R ⟨[("p1", []), ("p2", [])], []⟩ ["p1", "p2"] = c2st1 := by
  decide

/-- From `c2st1` with free list `[p2]`, every further sweep is a no-op
(`p2` has exhausted its preference list), so the loop never returns. -/
theorem c2_stuck : ∀ n : Nat, runLoop c2P c2R n ["p2"] c2st1 = none := by
  intro n
  induction n with
  | zero => rfl
  | succ k ih =>
    have hstep : runLoop c2P c2R (k + 1) ["p2"] c2st1 =
        runLoop c2P c2R k ["p2"] c2st1 := rfl
    rw [hstep, ih]

/-- **C2 (code bug).** The unequal-sides input `c2ps` passes validation,
yet `stable_matching` never returns on it, for any fuel: once `p2` has
been rejected by the only receiver it loops forever, since the `while`
guard only tests that the free list is non-empty, never whether a free
proposer still has an unproposed target. -/
theorem claim2_validated_input_loops_forever :
    all_preferences c2ps = true ∧
    ∀ fuel : Nat, stable_matching fuel c2ps = none := by
  refine ⟨by decide, fun fuel => ?_⟩
  cases fuel with
  | zero => rfl
  | succ k =>
    have hstep : stable_matching (k + 1) c2ps =
        (match runLoop c2P c2R k ["p2"] c2st1 with
         | some st => some (SMOutcome.ok (compose st.engagements))
         | none => none) := rfl
    rw [hstep, c2_stuck k]

/-- **C3 (code bug).** On `c3ps`, sweep 3 iterates over the free list
`[p4]`, while the set of proposers absent from the engagement map at that
point is `{p1, p4}`: the displaced incumbent `p1` is free but is never
again iterated over (its history still holds only `r1`), and the final
matching omits it entirely. -/
theorem claim3_free_set_mismatch :
    c3free2 = ["p4"] ∧
    c3free2 ≠ [] ∧
    dget c3st2.engagements "p1" = none ∧
    dget c3st2.history "p1" = some ["r1"] ∧
    stable_matching 9 c3ps =
      some (SMOutcome.ok [("r1", "p3"), ("p2", "r2"), ("p4", "r3")]) := by
  decide

/-- **C6 (counterexample).** On the sample input the returned pair
`(123, pqq)` has the receiving-side member `123` first: the output is not
canonically oriented with the proposing-side member first. -/
theorem claim6_receiver_first_counterexample :
    stable_matching 5 samplePs =
      some (SMOutcome.ok [("123", "pqq"), ("abc", "451"), ("asd", "912")]) ∧
    ("123", "pqq") ∈ [(("123" : Person), ("pqq" : Person)), ("abc", "451"), ("asd", "912")] ∧
    dmem sampleB "123" = true ∧
    dmem sampleA "123" = false := by
  decide

/-- **C6 (amended).** Every pair in the composed output is literally an
entry of the engagement map it was composed from: the emitted orientation
is the stored orientation of whichever direction of the couple is reached
first, not a canonical proposing-side-first orientation (on the sample
input this yields the receiver-first pair `(123, pqq)`). -/
theorem claim6_emitted_pairs_amended (e : Matching) (ab : Pair)
    (h : ab ∈ compose e) : ab ∈ e :=
  compose_mem h

/-- Witness for the amended C6 at a concrete engagement map. -/
theorem claim6_emitted_pairs_amended_witness :
    (("123", "pqq") : Pair) ∈ ([("123", "pqq"), ("pqq", "123")] : Matching) :=
  claim6_emitted_pairs_amended [("123", "pqq"), ("pqq", "123")] ("123", "pqq") (by decide)

/-- **C4.** On a two-sided input, `stable_matching` signals
`MissingPreferences` exactly when some participant's preference list omits
a member of the opposite side; and when the input is incomplete it does so
for every fuel — i.e. independently of the proposal loop, which never
runs, so no partial matching is observable. -/
theorem claim4_missing_prefs_iff (la lb : String) (A B : Side) (fuel : Nat)
    (hlab : la ≠ lb) :
    (stable_matching fuel [(la, A), (lb, B)] = some SMOutcome.missingPrefs ↔
      ¬ Complete A B) ∧
    (¬ Complete A B →
      ∀ f : Nat, stable_matching f [(la, A), (lb, B)] = some SMOutcome.missingPrefs) := by
  have hiff := all_preferences_two la lb A B hlab
  have hmain : ∀ f : Nat,
      stable_matching f [(la, A), (lb, B)] = some SMOutcome.missingPrefs ↔
        ¬ Complete A B := by
    intro f
    by_cases hv : all_preferences [(la, A), (lb, B)] = true
    · rw [stable_matching, if_pos hv]
      simp only [List.map_cons, List.map_nil, other_side_fst la lb hlab,
        dget_pair_fst, dget_pair_snd la lb A B hlab]
      constructor
      · intro h
        exfalso
        cases hr : runLoop A B f (A.map Prod.fst) ⟨A.map (fun e => (e.1, [])), []⟩ with
        | none => rw [hr] at h; cases h
        | some st => rw [hr] at h; cases h
      · intro hnc
        exact absurd (hiff.mp hv) hnc
    · rw [stable_matching, if_neg hv]
      exact ⟨fun _ hc => hv (hiff.mpr hc), fun _ => rfl⟩
  exact ⟨hmain fuel, fun hnc f => (hmain f).mpr hnc⟩

/-- Witness for C4: an incomplete two-sided input (the proposer `x` ranks
nobody, omitting receiver `y`) is rejected with `MissingPreferences`. -/
theorem claim4_missing_prefs_iff_witness :
    stable_matching 3 [("A", [("x", ([] : List Person))]), ("B", [("y", ["x"])])] =
      some SMOutcome.missingPrefs :=
  ((claim4_missing_prefs_iff "A" "B" [("x", ([] : List Person))] [("y", ["x"])] 3
      (by decide)).1).mpr (by decide)

/-- **C9.** A single proposal step of the loop, run from a state whose
engagement map satisfies the invariant (unique keys, mirror-symmetric
entries, proposer-receiver entries only) on a free proposer of the
proposing side, yields an engagement map with unique keys in which
`engagements[x] = y` implies `engagements[y] = x`: every update — first
engagement or replacement with deletion of the incumbent — preserves the
spec's Engagement invariant, so it holds at every point between proposal
steps. -/
theorem claim9_engagement_invariant (proposers receivers : Side) (st : MState)
    (p : Person)
    (hdisj : ∀ x ∈ proposers.map Prod.fst, x ∉ receivers.map Prod.fst)
    (hprefs : ∀ ep ∈ proposers, ∀ t ∈ ep.2, t ∈ receivers.map Prod.fst)
    (hInv : EngInv (proposers.map Prod.fst) (receivers.map Prod.fst) st.engagements)
    (hpk : p ∈ proposers.map Prod.fst)
    (hfree : dget st.engagements p = none) :
    (((proposeStep proposers receivers st p).engagements.map Prod.fst).Nodup) ∧
    (∀ x y : Person,
      dget (proposeStep proposers receivers st p).engagements x = some y →
      dget (proposeStep proposers receivers st p).engagements y = some x) := by
  have h := (proposeStep_inv proposers receivers st p hdisj hprefs hInv hpk hfree).1
  exact ⟨h.1, fun x y hxy => h.dget_symm hxy⟩

/-- Witness for C9: the first proposal step of the sample run. -/
theorem claim9_engagement_invariant_witness :
    (((proposeStep sampleA sampleB ⟨[("abc", []), ("asd", []), ("pqq", [])], []⟩
        "abc").engagements.map Prod.fst).Nodup) ∧
    (∀ x y : Person,
      dget (proposeStep sampleA sampleB ⟨[("abc", []), ("asd", []), ("pqq", [])], []⟩
        "abc").engagements x = some y →
      dget (proposeStep sampleA sampleB ⟨[("abc", []), ("asd", []), ("pqq", [])], []⟩
        "abc").engagements y = some x) :=
  claim9_engagement_invariant sampleA sampleB
    ⟨[("abc", []), ("asd", []), ("pqq", [])], []⟩ "abc"
    (by decide) (by decide) (by decide) (by decide) rfl

/-- **C10.** `preferred` returns `None` exactly when neither argument
occurs in the preference list; and in the proposal loop's replacement
test, where the invariant makes the incumbent a member of the proposing
side and validation puts every proposing-side member in every receiver's
list, the call cannot return `None`. -/
theorem claim10_preferred_total (proposers receivers : Side) (e : Matching)
    (a c t : Person) (tprefs : List Person)
    (hdisj : ∀ x ∈ proposers.map Prod.fst, x ∉ receivers.map Prod.fst)
    (hval : ∀ er ∈ receivers, ∀ q ∈ proposers.map Prod.fst, q ∈ er.2)
    (hInv : EngInv (proposers.map Prod.fst) (receivers.map Prod.fst) e)
    (ha : a ∈ proposers.map Prod.fst)
    (htk : t ∈ receivers.map Prod.fst)
    (hc : dget e t = some c)
    (htp : dget receivers t = some tprefs) :
    (∀ x y : Person, ∀ l : List Person, preferred x y l = none ↔ x ∉ l ∧ y ∉ l) ∧
    c ∈ proposers.map Prod.fst ∧
    preferred a c tprefs ≠ none := by
  have hck : c ∈ proposers.map Prod.fst := by
    rcases hInv.2.2 (t, c) (dget_mem hc) with h1 | h1
    · exact absurd htk (hdisj t h1.1)
    · exact h1.2
  exact ⟨fun x y l => preferred_eq_none_iff x y l, hck,
    preferred_ne_none_left (hval (t, tprefs) (dget_mem htp) a ha)⟩

/-- Witness for C10: the sample run's replacement test where `asd`
challenges the incumbent `abc` for receiver `123`. -/
theorem claim10_preferred_total_witness :
    (∀ x y : Person, ∀ l : List Person, preferred x y l = none ↔ x ∉ l ∧ y ∉ l) ∧
    ("abc" : Person) ∈ sampleA.map Prod.fst ∧
    preferred "asd" "abc" ["pqq", "asd", "abc"] ≠ none :=
  claim10_preferred_total sampleA sampleB [("abc", "123"), ("123", "abc")]
    "asd" "abc" "123" ["pqq", "asd", "abc"]
    (by decide) (by decide) (by decide) (by decide) (by decide) (by decide) (by decide)

/-- **C7.** On any well-formed two-sided input (distinct side labels,
duplicate-free proposer identifiers, disjoint sides, preference lists
naming only opposite-side members), a returned matching never contains a
pair in both orientations, contains no duplicate pair, and no participant
occurs in two distinct pairs. -/
theorem claim7_output_unique (la lb : String) (A B : Side) (fuel : Nat)
    (pairs : List Pair)
    (hlab : la ≠ lb)
    (hnd : (A.map Prod.fst).Nodup)
    (hdisj : ∀ x ∈ A.map Prod.fst, x ∉ B.map Prod.fst)
    (hprefs : ∀ ep ∈ A, ∀ t ∈ ep.2, t ∈ B.map Prod.fst)
    (hrun : stable_matching fuel [(la, A), (lb, B)] = some (SMOutcome.ok pairs)) :
    (∀ a b : Person, (a, b) ∈ pairs → (b, a) ∉ pairs) ∧
    pairs.Nodup ∧
    (∀ q1 ∈ pairs, ∀ q2 ∈ pairs, ∀ x : Person,
      (x = q1.1 ∨ x = q1.2) → (x = q2.1 ∨ x = q2.2) → q1 = q2) := by
  obtain ⟨stf, hloop, hpairs⟩ := stable_matching_run hlab hrun
  have hInv : EngInv (A.map Prod.fst) (B.map Prod.fst) stf.engagements :=
    runLoop_inv A B hdisj hprefs fuel (A.map Prod.fst)
      ⟨A.map (fun e => (e.1, [])), []⟩ stf
      ⟨by simp, by simp, by simp⟩ (fun q hq => hq) hnd (fun q _ => rfl) hloop
  subst hpairs
  have hne : ∀ a b : Person, (a, b) ∈ compose stf.engagements → a ≠ b := by
    intro a b hm he
    rcases hInv.2.2 (a, b) (compose_mem hm) with h1 | h1
    · exact hdisj a h1.1 (by rw [he]; exact h1.2)
    · exact hdisj b h1.2 (by rw [← he]; exact h1.1)
  refine ⟨fun a b h1 => compose_norev (hne a b h1) h1, compose_nodup _, ?_⟩
  intro q1 hq1 q2 hq2 x hx1 hx2
  have m1 : q1 ∈ stf.engagements := compose_mem hq1
  have m2 : q2 ∈ stf.engagements := compose_mem hq2
  have d1 : dget stf.engagements q1.1 = some q1.2 := mem_dget hInv.1 m1
  have d1r : dget stf.engagements q1.2 = some q1.1 := hInv.2.1 q1 m1
  have d2 : dget stf.engagements q2.1 = some q2.2 := mem_dget hInv.1 m2
  have d2r : dget stf.engagements q2.2 = some q2.1 := hInv.2.1 q2 m2
  have hrevq : q2 = (q1.2, q1.1) → False := by
    intro hq
    rw [hq] at hq2
    exact compose_norev (hne q1.1 q1.2 hq1) hq1 hq2
  rcases hx1 with rfl | rfl
  · rcases hx2 with h | h
    · rw [← h] at d2
      exact Prod.ext_iff.mpr ⟨h, Option.some.inj (d1.symm.trans d2)⟩
    · rw [← h] at d2r
      have h21 : q2.1 = q1.2 := (Option.some.inj (d1.symm.trans d2r)).symm
      exact absurd (Prod.ext_iff.mpr ⟨h21, h.symm⟩) (fun hq => hrevq hq)
  · rcases hx2 with h | h
    · rw [← h] at d2
      have h22 : q2.2 = q1.1 := (Option.some.inj (d1r.symm.trans d2)).symm
      exact absurd (Prod.ext_iff.mpr ⟨h.symm, h22⟩) (fun hq => hrevq hq)
    · rw [← h] at d2r
      exact Prod.ext_iff.mpr ⟨Option.some.inj (d1r.symm.trans d2r), h⟩

/-- Witness for C7 at the sample input. -/
theorem claim7_output_unique_witness :
    (∀ a b : Person,
      (a, b) ∈ [(("123" : Person), ("pqq" : Person)), ("abc", "451"), ("asd", "912")] →
      (b, a) ∉ [(("123" : Person), ("pqq" : Person)), ("abc", "451"), ("asd", "912")]) ∧
    ([(("123" : Person), ("pqq" : Person)), ("abc", "451"), ("asd", "912")]).Nodup ∧
    (∀ q1 ∈ [(("123" : Person), ("pqq" : Person)), ("abc", "451"), ("asd", "912")],
     ∀ q2 ∈ [(("123" : Person), ("pqq" : Person)), ("abc", "451"), ("asd", "912")],
     ∀ x : Person, (x = q1.1 ∨ x = q1.2) → (x = q2.1 ∨ x = q2.2) → q1 = q2) :=
  claim7_output_unique "side_A" "side_B" sampleA sampleB 5
    [("123", "pqq"), ("abc", "451"), ("asd", "912")]
    (by decide) (by decide) (by decide) (by decide) (by decide)

end GaleShapley
